import Mathlib

/-!
Verification of the first-fit arena allocator in `src/main.c`.

The arena (`memspace`) is a fixed buffer of `Maxwords` 4-byte words.  Every
word can be read through the packed header bitfield `struct s_header`
(30-bit size `w`, 1-bit `alloced`, 1-bit `reserved`; the reserved bit is
never read or written by the allocator and is not modelled).  We model the
arena as a function from word offsets to header records and every C pointer
into the arena as its word offset from `memspace` (`ptr = memspace + 4*po`).
The capacity `Maxwords` is kept as an explicit parameter `C`, matching the
two `Maxwords` definitions in the repository's headers (both below `2^30`).

Machine arithmetic: `word` is a 32-bit unsigned integer, so additions and
subtractions that the C code performs on `word` values are taken modulo
`2^32`; stores into the 30-bit `w` bitfield are taken modulo `2^30`.
-/

namespace MemAlloc

/-- `2^32`, the modulus of the C `word` (`unsigned int`) type. -/
def W32 : Nat := 4294967296

/-- `2^30`, the modulus of the 30-bit `w : 30` size bitfield in `s_header`. -/
def W30 : Nat := 1073741824

/-- One arena word viewed through the header bitfield of `struct s_header`:
`w` is the 30-bit size field (in words, including the header word itself) and
`alloced` the allocation flag.  The third bitfield `reserved` is never read
or written by the allocator and is omitted. -/
structure Hdr where
  w : Nat
  alloced : Bool
deriving DecidableEq, Repr

/-- The arena contents: each word offset is read through the header codec. -/
abbrev Mem := Nat → Hdr

/-- Write one arena word (the effect of a C store through a header pointer). -/
def upd (m : Mem) (i : Nat) (h : Hdr) : Mem :=
  fun j => if j = i then h else m j

@[simp] theorem upd_same (m : Mem) (i : Nat) (h : Hdr) : upd m i h i = h := by
  simp [upd]

@[simp] theorem upd_ne (m : Mem) (i : Nat) (h : Hdr) {j : Nat} (hj : j ≠ i) :
    upd m i h j = m j := by
  simp [upd, hj]

/-- The zero-initialized arena (`memspace` sits in `.bss`, so every word,
read through the header codec, is size 0 and not allocated). -/
def zeroMem : Mem := fun _ => ⟨0, false⟩

/-- `findBlock_(hdr, words_to_alloc, n)` from `src/main.c` (lines 115-153):
first-fit scan for a free block with `w >= words_to_alloc + 1`, walking the
header chain from word offset `n`; gives up as soon as `n >= Maxwords - 2`.
The C function recurses without any bound; the extra `fuel` argument is the
embedding's recursion bound (the C program diverges exactly where every
fuel value is exhausted; claims about `alloc` use fuel `C + 1`, which the
termination theorem below shows is enough on every valid chain). -/
def findBlock_ (C : Nat) (m : Mem) (words_to_alloc : Nat) : Nat → Nat → Option Nat
  | 0, _ => none
  | fuel + 1, n =>
    if C - 2 ≤ n then none
    else
      if (m n).alloced = false ∧ (words_to_alloc + 1) % W32 ≤ (m n).w then some n
      else findBlock_ C m words_to_alloc fuel ((n + (m n).w) % W32)

/-- `mkalloc(words_to_alloc, hdr)` from `src/main.c` (lines 162-203), with
`hdr` given as its word offset `ho`.  Splits the found block when the
remainder `original_size - total_required_size` (32-bit unsigned) is at
least 2, marks the block allocated, and returns the data pointer `hdr + 1`
(as a word offset). -/
def mkalloc (words_to_alloc : Nat) (ho : Nat) (m : Mem) : Mem × Nat :=
  let required := (words_to_alloc + 1) % W32
  let original := (m ho).w
  let rem := (original + (W32 - required)) % W32
  let m1 :=
    if 2 ≤ rem then
      let mA := upd m (ho + required) ⟨rem % W30, false⟩
      upd mA ho ⟨required % W30, (mA ho).alloced⟩
    else m
  (upd m1 ho ⟨(m1 ho).w, true⟩, ho + 1)

/-- `alloc(bytes)` from `src/main.c` (lines 212-265).  Computes the word
count `(bytes + 3) / 4` in 32-bit unsigned arithmetic, lazily initializes
the arena on the first call (first header reads size 0), then searches with
`findBlock` (which starts `findBlock_` at `memspace`, offset 0) and
allocates with `mkalloc`.  Returns the new arena and `some` data-pointer
word offset, or `none` after setting `errno = ErrNoMem` (the only error
code `alloc` ever sets). -/
def alloc (C : Nat) (bytes : Nat) (m : Mem) : Mem × Option Nat :=
  let words := ((bytes + 3) % W32) / 4
  if (m 0).w = 0 then
    if C < words + 1 then (m, none)
    else
      let m1 := upd m 0 ⟨C % W30, false⟩
      match findBlock_ C m1 words (C + 1) 0 with
      | none => (m1, none)
      | some ho => ((mkalloc words ho m1).1, some (mkalloc words ho m1).2)
  else
    match findBlock_ C m words (C + 1) 0 with
    | none => (m, none)
    | some ho => ((mkalloc words ho m).1, some (mkalloc words ho m).2)

/-- Outcome of `freealloc`: the C function reports each case through a
distinct printf and returns; it never aborts the process. -/
inductive FreeRes where
  | nullPtr
  | invalidPtr
  | doubleFree
  | corrupt
  | ok
deriving DecidableEq, Repr

/-- `freealloc(ptr)` from `src/main.c` (lines 16-106), for pointers that are
word-aligned: `p = some po` stands for `ptr = memspace + 4*po` and
`p = none` for `ptr = NULL`.  The header is `ptr - 1` word; it is rejected
when it lies below `memspace` (here: `po = 0`) or its word offset is
`>= Maxwords`, then when it is not allocated, then when its size is 0.
Otherwise the block is marked free and merged with the immediately
following block when that one is in bounds, free and of nonzero size.
(Misaligned pointers cannot be expressed as a word offset; the byte-level
validation they go through is modelled separately by `invalidPtrCheck`.) -/
def freealloc (C : Nat) (p : Option Nat) (m : Mem) : Mem × FreeRes :=
  match p with
  | none => (m, FreeRes.nullPtr)
  | some po =>
    if po = 0 then (m, FreeRes.invalidPtr)
    else
      let ho := po - 1
      if C ≤ ho then (m, FreeRes.invalidPtr)
      else if (m ho).alloced = false then (m, FreeRes.doubleFree)
      else if (m ho).w = 0 then (m, FreeRes.corrupt)
      else
        let m1 := upd m ho ⟨(m ho).w, false⟩
        let nho := (ho + (m1 ho).w) % W32
        if nho < C then
          if (m1 nho).alloced = false then
            if 0 < (m1 nho).w then
              (upd m1 ho ⟨((m1 ho).w + (m1 nho).w) % W30, false⟩, FreeRes.ok)
            else (m1, FreeRes.ok)
          else (m1, FreeRes.ok)
        else (m1, FreeRes.ok)

/-- The pointer validation of `freealloc` (`src/main.c` lines 39-46) on the
raw byte address: `ptrByte` is the byte offset of `ptr` from `memspace`.
The header address is `ptr - 4` bytes; the code rejects (`InvalidPointer`)
iff the header lies below `memspace` or the truncated word offset
`(hdr - memspace) / 4` is `>= Maxwords`.  No alignment check is made. -/
def invalidPtrCheck (C : Nat) (ptrByte : Int) : Bool :=
  let hdrByte := ptrByte - 4
  if hdrByte < 0 then true else decide (C ≤ hdrByte.toNat / 4)

/-- `ChainFromL C m n l`: starting at word offset `n`, the header chain of
`m` walks through exactly the offsets in `l` (each of nonzero size, each
step advancing by the header's size) and ends exactly at capacity `C`.
`ChainFromL C m 0 l` is the arena invariant from the spec: the headers
partition the arena. -/
inductive ChainFromL (C : Nat) (m : Mem) : Nat → List Nat → Prop
  | nil : ChainFromL C m C []
  | cons {n : Nat} {l : List Nat} (hn : n < C) (hw : 1 ≤ (m n).w)
      (tl : ChainFromL C m (n + (m n).w) l) : ChainFromL C m n (n :: l)

/-- The arena invariant: some list of offsets forms the header chain. -/
def validChain (C : Nat) (m : Mem) : Prop := ∃ l, ChainFromL C m 0 l

theorem ChainFromL.le_C {C : Nat} {m : Mem} :
    ∀ {n : Nat} {l : List Nat}, ChainFromL C m n l → n ≤ C := by
  intro n l h
  induction h with
  | nil => exact Nat.le_refl _
  | cons hn hw tl ih => omega

theorem ChainFromL.mem_ge {C : Nat} {m : Mem} :
    ∀ {n : Nat} {l : List Nat}, ChainFromL C m n l → ∀ k ∈ l, n ≤ k := by
  intro n l h
  induction h with
  | nil => intro k hk; cases hk
  | cons hn hw tl ih =>
    intro k hk
    rcases List.mem_cons.mp hk with rfl | hk
    · exact Nat.le_refl _
    · have := ih k hk; omega

theorem ChainFromL.suffix {C : Nat} {m : Mem} :
    ∀ {n : Nat} {l : List Nat} {ho : Nat}, ChainFromL C m n l → ho ∈ l →
      ∃ lt, ChainFromL C m ho (ho :: lt) := by
  intro n l ho h
  induction h with
  | nil => intro hk; cases hk
  | cons hn hw tl ih =>
    intro hk
    rcases List.mem_cons.mp hk with rfl | hk
    · exact ⟨_, ChainFromL.cons hn hw tl⟩
    · exact ih hk

theorem ChainFromL.congr_w {C : Nat} {m m' : Mem} :
    ∀ {n : Nat} {l : List Nat}, ChainFromL C m n l →
      (∀ k ∈ l, (m' k).w = (m k).w) → ChainFromL C m' n l := by
  intro n l h
  induction h with
  | nil => intro _; exact ChainFromL.nil
  | cons hn hw tl ih =>
    intro hag
    have hw' : (m' _).w = (m _).w := hag _ (List.mem_cons_self _ _)
    refine ChainFromL.cons hn (by omega) ?_
    rw [hw']
    exact ih fun k hk => hag k (List.mem_cons_of_mem _ hk)

theorem ChainFromL.sum_w {C : Nat} {m : Mem} :
    ∀ {n : Nat} {l : List Nat}, ChainFromL C m n l →
      n + (l.map fun k => (m k).w).sum = C := by
  intro n l h
  induction h with
  | nil => simp
  | cons hn hw tl ih => simp only [List.map_cons, List.sum_cons]; omega

theorem ChainFromL.sorted {C : Nat} {m : Mem} :
    ∀ {n : Nat} {l : List Nat}, ChainFromL C m n l → l.Chain' (· < ·) := by
  intro n l h
  induction h with
  | nil => exact List.chain'_nil
  | cons hn hw tl ih =>
    refine List.chain'_cons'.mpr ⟨?_, ih⟩
    intro y hy
    have hy' : y ∈ _ := List.mem_of_mem_head? hy
    have := tl.mem_ge y hy'
    omega

/-- A one-block arena (one free header of size `C` at offset 0) is a valid
chain; used to discharge the invariant on freshly initialized arenas. -/
theorem chain_single {C : Nat} {m : Mem} (h1 : (m 0).w = C) (h0 : 0 < C) :
    ChainFromL C m 0 [0] := by
  refine ChainFromL.cons h0 (by omega) ?_
  rw [h1, Nat.zero_add]
  exact ChainFromL.nil

/-- Inversion: a chain suffix starting strictly below capacity must start
with a block of nonzero size. -/
theorem ChainFromL.inv_lt {C : Nat} {m : Mem} {n : Nat} {l : List Nat}
    (h : ChainFromL C m n l) (hlt : n < C) :
    1 ≤ (m n).w ∧ ∃ l₂, l = n :: l₂ ∧ ChainFromL C m (n + (m n).w) l₂ := by
  cases h with
  | nil => omega
  | cons hn hw tl => exact ⟨hw, _, rfl, tl⟩

/-- Splitting a chain block of size `S` at `ho` into an entry of size `r`
followed by an entry of size `S - r` (with `S - r ≥ 2`) keeps the header
chain valid: the old entry is replaced by two consecutive ones. -/
theorem chain_split {C : Nat} (m m' : Mem) (ho r S : Nat)
    (hS : (m ho).w = S) (hr1 : 1 ≤ r) (hr2 : r + 2 ≤ S)
    (hho : (m' ho).w = r) (hmid : (m' (ho + r)).w = S - r)
    (hrest : ∀ k, k ≠ ho → k ≠ ho + r → (m' k).w = (m k).w) :
    ∀ {n : Nat} {l : List Nat}, ChainFromL C m n l → ho ∈ l →
      ∃ l', ChainFromL C m' n l' := by
  intro n l h
  induction h with
  | nil => intro hk; cases hk
  | @cons n l₁ hn hw tl ih =>
    intro hk
    by_cases hcase : ho = n
    · -- the split happens at the head of this suffix
      subst hcase
      have hSC : ho + S ≤ C := by have := tl.le_C; omega
      refine ⟨ho :: (ho + r) :: l₁, ChainFromL.cons hn (by omega) ?_⟩
      rw [hho]
      refine ChainFromL.cons (by omega) (by rw [hmid]; omega) ?_
      rw [hmid]
      have hidx : ho + r + (S - r) = ho + (m ho).w := by omega
      rw [hidx]
      refine tl.congr_w ?_
      intro k hk
      have hk1 := tl.mem_ge k hk
      exact hrest k (by omega) (by omega)
    · -- the split happens further along the chain
      have hk' : ho ∈ l₁ := by
        rcases List.mem_cons.mp hk with h1 | h1
        · exact absurd h1 hcase
        · exact h1
      have hge := tl.mem_ge ho hk'
      obtain ⟨l₁', tl'⟩ := ih hk'
      have hwn : (m' n).w = (m n).w := hrest n (by omega) (by omega)
      refine ⟨n :: l₁', ChainFromL.cons hn (by omega) ?_⟩
      rw [hwn]
      exact tl'

/-- Forward coalescing: replacing the chain entries at `ho` (size `w1`) and
at `ho + w1` (size `w2`) by a single entry of size `w1 + w2` keeps the
chain valid.  The hypothesis only constrains the new memory at `ho`, so the
lemma also covers a merge write landing at an offset that is not on the
chain at all (then the walk is simply unchanged). -/
theorem chain_merge {C : Nat} (m m' : Mem) (ho : Nat)
    (hw1 : 1 ≤ (m ho).w) (hlt : ho + (m ho).w < C)
    (hho : (m' ho).w = (m ho).w + (m (ho + (m ho).w)).w)
    (hrest : ∀ k, k ≠ ho → (m' k).w = (m k).w) :
    ∀ {n : Nat} {l : List Nat}, ChainFromL C m n l →
      ∃ l', ChainFromL C m' n l' := by
  intro n l h
  induction h with
  | nil => exact ⟨[], ChainFromL.nil⟩
  | @cons n l₁ hn hw tl ih =>
    by_cases hne : n = ho
    · subst hne
      -- invert the tail: since n + w < C it must be another cons
      obtain ⟨hw2, l₂, rfl, tl₂⟩ := tl.inv_lt hlt
      refine ⟨n :: l₂, ChainFromL.cons hn (by omega) ?_⟩
      rw [hho]
      have hidx : n + ((m n).w + (m (n + (m n).w)).w)
          = n + (m n).w + (m (n + (m n).w)).w := by omega
      rw [hidx]
      refine tl₂.congr_w ?_
      intro k hk
      have := tl₂.mem_ge k hk
      exact hrest k (by omega)
    · obtain ⟨l₁', tl'⟩ := ih
      have hwn : (m' n).w = (m n).w := hrest n hne
      refine ⟨n :: l₁', ChainFromL.cons hn (by omega) ?_⟩
      rw [hwn]
      exact tl'

/-- Whatever `findBlock_` returns on a valid chain suffix is an offset of
that chain holding a free block large enough for the request. -/
theorem find_chain_mem {C : Nat} {m : Mem} {wta : Nat} (hC : C < W30) :
    ∀ {fuel n : Nat} {l : List Nat} {ho : Nat}, ChainFromL C m n l →
      findBlock_ C m wta fuel n = some ho →
      ho ∈ l ∧ (m ho).alloced = false ∧ (wta + 1) % W32 ≤ (m ho).w := by
  intro fuel
  induction fuel with
  | zero => intro n l ho _ hfind; simp [findBlock_] at hfind
  | succ fuel ih =>
    intro n l ho h hfind
    rw [findBlock_] at hfind
    by_cases hg : C - 2 ≤ n
    · simp [hg] at hfind
    · rw [if_neg hg] at hfind
      by_cases hcond : (m n).alloced = false ∧ (wta + 1) % W32 ≤ (m n).w
      · rw [if_pos hcond] at hfind
        cases hfind
        cases h with
        | nil => omega
        | cons hn hw tl => exact ⟨List.mem_cons_self _ _, hcond⟩
      · rw [if_neg hcond] at hfind
        cases h with
        | nil => omega
        | @cons n l₁ hn hw tl =>
          have hle : n + (m n).w ≤ C := tl.le_C
          have hmask : (n + (m n).w) % W32 = n + (m n).w := by
            have hW : W30 = 1073741824 := rfl
            have hW2 : W32 = 4294967296 := rfl
            exact Nat.mod_eq_of_lt (by omega)
          rw [hmask] at hfind
          obtain ⟨hmem, hrest⟩ := ih tl hfind
          exact ⟨List.mem_cons_of_mem _ hmem, hrest⟩

/-- The word count computed by `alloc` from any byte count is below `2^30`,
so `words + 1` can never wrap in 32-bit arithmetic. -/
theorem words_succ_le {bytes : Nat} : ((bytes + 3) % W32) / 4 + 1 ≤ W30 := by
  have h1 : (bytes + 3) % W32 ≤ W32 - 1 := by
    have := Nat.mod_lt (bytes + 3) (show 0 < W32 by norm_num [W32])
    omega
  have h2 : (bytes + 3) % W32 / 4 ≤ (W32 - 1) / 4 := Nat.div_le_div_right h1
  have h3 : (W32 - 1) / 4 = 1073741823 := by norm_num [W32]
  have h4 : W30 = 1073741824 := rfl
  omega

/-- Behaviour of `mkalloc` in the splitting branch
(`original_size - total_required_size >= 2`): the found block's header is
rewritten to `words + 1` and marked allocated, a new free header of exactly
the remainder size appears right after the allocated portion, no other word
changes, and the returned pointer is one word past the header. -/
theorem mkalloc_eq_split {m : Mem} {wta ho S : Nat}
    (hS : (m ho).w = S) (hw32 : wta + 1 < W32) (hS30 : S < W30)
    (hfit : wta + 1 ≤ S) (hsplit : 2 ≤ S - (wta + 1)) :
    (mkalloc wta ho m).1 ho = ⟨wta + 1, true⟩
    ∧ (mkalloc wta ho m).1 (ho + (wta + 1)) = ⟨S - (wta + 1), false⟩
    ∧ (∀ k, k ≠ ho → k ≠ ho + (wta + 1) → (mkalloc wta ho m).1 k = m k)
    ∧ (mkalloc wta ho m).2 = ho + 1 := by
  have hw32' : wta + 1 < 4294967296 := hw32
  have hS30' : S < 1073741824 := hS30
  have hreq : (wta + 1) % W32 = wta + 1 := Nat.mod_eq_of_lt hw32
  have hrem : (S + (W32 - (wta + 1))) % W32 = S - (wta + 1) := by
    show (S + (4294967296 - (wta + 1))) % 4294967296 = S - (wta + 1)
    omega
  have hrm30 : (S - (wta + 1)) % W30 = S - (wta + 1) := by
    show (S - (wta + 1)) % 1073741824 = S - (wta + 1)
    omega
  have hr30 : (wta + 1) % W30 = wta + 1 := by
    show (wta + 1) % 1073741824 = wta + 1
    omega
  have hne : ho ≠ ho + (wta + 1) := by omega
  simp only [mkalloc, hS, hreq, hrem]
  rw [if_pos hsplit]
  refine ⟨?_, ?_, ?_, by trivial⟩
  · simp [upd, hr30]
  · simp [upd, hne.symm, Ne.symm hne, hrm30]
  · intro k hk1 hk2
    simp [upd, hk1, hk2]

/-- Behaviour of `mkalloc` when the remainder would be smaller than 2 words:
the whole block is consumed, its size is unchanged, only its allocation
flag flips, and the returned pointer is one word past the header. -/
theorem mkalloc_eq_consume {m : Mem} {wta ho S : Nat}
    (hS : (m ho).w = S) (hw32 : wta + 1 < W32) (hS30 : S < W30)
    (hfit : wta + 1 ≤ S) (hns : S - (wta + 1) < 2) :
    (mkalloc wta ho m).1 ho = ⟨S, true⟩
    ∧ (∀ k, k ≠ ho → (mkalloc wta ho m).1 k = m k)
    ∧ (mkalloc wta ho m).2 = ho + 1 := by
  have hw32' : wta + 1 < 4294967296 := hw32
  have hS30' : S < 1073741824 := hS30
  have hreq : (wta + 1) % W32 = wta + 1 := Nat.mod_eq_of_lt hw32
  have hrem : (S + (W32 - (wta + 1))) % W32 = S - (wta + 1) := by
    show (S + (4294967296 - (wta + 1))) % 4294967296 = S - (wta + 1)
    omega
  simp only [mkalloc, hS, hreq, hrem]
  rw [if_neg (by omega)]
  refine ⟨?_, ?_, by trivial⟩
  · simp [upd, hS]
  · intro k hk1
    simp [upd, hk1]

/-- `mkalloc` keeps the header chain valid when applied (as `alloc` does) to
a chain block large enough for the request. -/
theorem mkalloc_preserves {C : Nat} {m : Mem} {wta ho : Nat} {l : List Nat}
    (hC : C < W30) (h : ChainFromL C m 0 l) (hmem : ho ∈ l)
    (hw32 : wta + 1 < W32) (hfit : wta + 1 ≤ (m ho).w) :
    validChain C (mkalloc wta ho m).1 := by
  obtain ⟨lt, hsuf⟩ := h.suffix hmem
  have hhoC : ho < C := by
    cases hsuf with
    | cons hn hw tl => exact hn
  obtain ⟨hw1, l₂, heq, htl⟩ := hsuf.inv_lt hhoC
  have hSC : ho + (m ho).w ≤ C := htl.le_C
  have hS30 : (m ho).w < W30 := by omega
  by_cases hsplit : 2 ≤ (m ho).w - (wta + 1)
  · obtain ⟨e1, e2, e3, _⟩ := mkalloc_eq_split rfl hw32 hS30 hfit hsplit
    have hho : ((mkalloc wta ho m).1 ho).w = wta + 1 := by rw [e1]
    have hmid : ((mkalloc wta ho m).1 (ho + (wta + 1))).w
        = (m ho).w - (wta + 1) := by rw [e2]
    obtain ⟨l', hl'⟩ := chain_split m ((mkalloc wta ho m).1) ho (wta + 1)
      ((m ho).w) rfl (by omega) (by omega) hho hmid
      (fun k hk1 hk2 => by rw [e3 k hk1 hk2]) h hmem
    exact ⟨l', hl'⟩
  · obtain ⟨e1, e2, _⟩ := mkalloc_eq_consume rfl hw32 hS30 hfit (by omega)
    refine ⟨l, h.congr_w ?_⟩
    intro k hk
    by_cases hk1 : k = ho
    · subst hk1; rw [e1]
    · rw [e2 k hk1]

theorem W30_lt_W32 : W30 < W32 := by norm_num [W30, W32]

/-- `freealloc` keeps the header chain valid, for every pointer argument:
rejected calls do not touch the arena, marking a block free does not change
any size field, and a forward merge either rewrites one chain entry (then
`chain_merge` applies) or only touches words that are not chain headers. -/
theorem freealloc_preserves {C : Nat} {m : Mem} {p : Option Nat} {l : List Nat}
    (hC : C < W30) (h : ChainFromL C m 0 l) :
    validChain C (freealloc C p m).1 := by
  have hC' : C < 1073741824 := hC
  match p with
  | none => exact ⟨l, h⟩
  | some po =>
    simp only [freealloc, upd_same]
    split_ifs with h1 h2 h3 h4 h5 h6 h7
    · exact ⟨l, h⟩
    · exact ⟨l, h⟩
    · exact ⟨l, h⟩
    · exact ⟨l, h⟩
    · -- forward merge branch
      have hho : po - 1 < C := by omega
      have hw1 : 1 ≤ (m (po - 1)).w := by omega
      by_cases hmem : po - 1 ∈ l
      · obtain ⟨lt, hsuf⟩ := h.suffix hmem
        obtain ⟨-, l₂, -, htl⟩ := hsuf.inv_lt hho
        have hSC : po - 1 + (m (po - 1)).w ≤ C := htl.le_C
        have hmask : (po - 1 + (m (po - 1)).w) % W32 = po - 1 + (m (po - 1)).w := by
          refine Nat.mod_eq_of_lt ?_
          have := W30_lt_W32
          omega
        rw [hmask] at h5 h6 h7 ⊢
        have hnene : po - 1 + (m (po - 1)).w ≠ po - 1 := by omega
        rw [upd_ne _ _ _ hnene] at h6 h7 ⊢
        obtain ⟨hw2, l₃, -, htl₂⟩ := htl.inv_lt h5
        have hSC2 := htl₂.le_C
        have hmask30 : ((m (po - 1)).w + (m (po - 1 + (m (po - 1)).w)).w) % W30
            = (m (po - 1)).w + (m (po - 1 + (m (po - 1)).w)).w := by
          refine Nat.mod_eq_of_lt ?_
          omega
        obtain ⟨l', hl'⟩ := chain_merge m
          (upd (upd m (po - 1) ⟨(m (po - 1)).w, false⟩) (po - 1)
            ⟨((m (po - 1)).w + (m (po - 1 + (m (po - 1)).w)).w) % W30, false⟩)
          (po - 1) hw1 h5 (by simp [upd_same, hmask30])
          (fun k hk => by simp [upd, hk]) h
        exact ⟨l', hl'⟩
      · refine ⟨l, h.congr_w ?_⟩
        intro k hk
        have hkne : k ≠ po - 1 := fun hc => hmem (hc ▸ hk)
        simp [upd, hkne]
    · refine ⟨l, h.congr_w ?_⟩
      intro k hk
      by_cases hkne : k = po - 1
      · subst hkne; simp [upd]
      · simp [upd, hkne]
    · refine ⟨l, h.congr_w ?_⟩
      intro k hk
      by_cases hkne : k = po - 1
      · subst hkne; simp [upd]
      · simp [upd, hkne]
    · refine ⟨l, h.congr_w ?_⟩
      intro k hk
      by_cases hkne : k = po - 1
      · subst hkne; simp [upd]
      · simp [upd, hkne]

/-- `alloc` keeps the header chain valid: on a valid chain the lazy-init
branch is unreachable (except in the degenerate capacity-0 arena, where
`alloc` does not mutate), a failed search does not mutate, and a successful
search hands a genuine chain block to `mkalloc`. -/
theorem alloc_preserves {C : Nat} {m : Mem} {bytes : Nat} {l : List Nat}
    (hC : C < W30) (h : ChainFromL C m 0 l) :
    validChain C (alloc C bytes m).1 := by
  cases h with
  | nil =>
    by_cases h0 : (m 0).w = 0
    · simp [alloc, h0]
      exact ⟨[], ChainFromL.nil⟩
    · simp [alloc, h0, findBlock_]
      exact ⟨[], ChainFromL.nil⟩
  | @cons n l₁ hn hw tl =>
    have h' : ChainFromL C m 0 (0 :: l₁) := ChainFromL.cons hn hw tl
    have h0 : ¬((m 0).w = 0) := by omega
    simp only [alloc, if_neg h0]
    rcases hfind : findBlock_ C m (((bytes + 3) % W32) / 4) (C + 1) 0 with _ | ho
    · simp only []
      exact ⟨_, h'⟩
    · simp only []
      have hw32 : ((bytes + 3) % W32) / 4 + 1 < W32 := by
        have := @words_succ_le bytes
        have := W30_lt_W32
        omega
      obtain ⟨hmem, hfree, hge⟩ := find_chain_mem hC h' hfind
      have hge' : ((bytes + 3) % W32) / 4 + 1 ≤ (m ho).w := by
        rwa [Nat.mod_eq_of_lt hw32] at hge
      exact mkalloc_preserves hC h' hmem hw32 hge'

/-- State after the first allocation of the spec's capacity-64 scenario
(`alloc(8)` on the fresh arena). -/
def mem64A : Mem := (alloc 64 8 zeroMem).1

/-- State after the second allocation of the capacity-64 scenario
(`alloc(16)` after `alloc(8)`). -/
def mem64B : Mem := (alloc 64 16 mem64A).1

theorem upd_upd_same (m : Mem) (i : Nat) (a b : Hdr) :
    upd (upd m i a) i b = upd m i b := by
  funext j
  by_cases hj : j = i <;> simp [upd, hj]

/-- Successful `freealloc` without forward coalescing: the following block
is out of bounds, allocated, or of size 0, so only the allocation flag of
the released block changes. -/
theorem freealloc_eq_nomerge {C : Nat} {m : Mem} {ho : Nat}
    (hho : ho < C) (hal : (m ho).alloced = true) (hw : (m ho).w ≠ 0)
    (hb32 : ho + (m ho).w < W32)
    (hnm : C ≤ ho + (m ho).w
        ∨ (m (ho + (m ho).w)).alloced = true
        ∨ (m (ho + (m ho).w)).w = 0) :
    freealloc C (some (ho + 1)) m = (upd m ho ⟨(m ho).w, false⟩, FreeRes.ok) := by
  have hne : ho + (m ho).w ≠ ho := by omega
  simp only [freealloc, Nat.add_sub_cancel, upd_same]
  rw [if_neg (by omega), if_neg (by omega), if_neg (by simp [hal]),
    if_neg hw, Nat.mod_eq_of_lt hb32, upd_ne _ _ _ hne]
  rcases hnm with hnm | hnm | hnm
  · rw [if_neg (by omega)]
  · by_cases hlt : ho + (m ho).w < C
    · rw [if_pos hlt, if_neg (by simp [hnm])]
    · rw [if_neg hlt]
  · by_cases hlt : ho + (m ho).w < C
    · rw [if_pos hlt]
      by_cases hfree : (m (ho + (m ho).w)).alloced = false
      · rw [if_pos hfree, if_neg (by omega)]
      · rw [if_neg hfree]
    · rw [if_neg hlt]

/-- Successful `freealloc` with forward coalescing: the following block is
in bounds, free and of nonzero size, so the released header absorbs it. -/
theorem freealloc_eq_merge {C : Nat} {m : Mem} {ho : Nat}
    (hho : ho < C) (hal : (m ho).alloced = true) (hw : (m ho).w ≠ 0)
    (hb32 : ho + (m ho).w < W32)
    (hlt : ho + (m ho).w < C)
    (hfree : (m (ho + (m ho).w)).alloced = false)
    (hw2 : 0 < (m (ho + (m ho).w)).w) :
    freealloc C (some (ho + 1)) m
      = (upd m ho ⟨((m ho).w + (m (ho + (m ho).w)).w) % W30, false⟩,
          FreeRes.ok) := by
  have hne : ho + (m ho).w ≠ ho := by omega
  simp only [freealloc, Nat.add_sub_cancel, upd_same]
  rw [if_neg (by omega), if_neg (by omega), if_neg (by simp [hal]),
    if_neg hw, Nat.mod_eq_of_lt hb32, upd_ne _ _ _ hne,
    if_pos hlt, if_pos hfree, if_pos hw2, upd_upd_same]

/-- C4: once the arena is initialized (its headers form a valid chain),
every `alloc` call and every `freealloc` call preserves the chain
invariant, and that invariant entails that the header sizes along the chain
from offset 0 sum to exactly the capacity `C` and that the chain offsets
strictly increase (headers never overlap). -/
theorem C4_ops_preserve_chain_invariant (C : Nat) (m : Mem) (bytes : Nat)
    (p : Option Nat) (l : List Nat) (hC : C < W30) (h : ChainFromL C m 0 l) :
    validChain C (alloc C bytes m).1
    ∧ validChain C (freealloc C p m).1
    ∧ (l.map fun k => (m k).w).sum = C
    ∧ l.Chain' (· < ·) := by
  refine ⟨alloc_preserves hC h, freealloc_preserves hC h, ?_, h.sorted⟩
  have := h.sum_w
  omega

/-- Witness for C4 at capacity 64: the freshly initialized one-block arena,
an `alloc(8)` and a `freealloc` of word pointer 1. -/
theorem C4_witness :
    validChain 64 (alloc 64 8 (upd zeroMem 0 ⟨64, false⟩)).1
    ∧ validChain 64 (freealloc 64 (some 1) (upd zeroMem 0 ⟨64, false⟩)).1
    ∧ (([0] : List Nat).map fun k => ((upd zeroMem 0 ⟨64, false⟩) k).w).sum = 64 := by
  have h := C4_ops_preserve_chain_invariant 64 (upd zeroMem 0 ⟨64, false⟩) 8
    (some 1) [0] (by norm_num [W30]) (chain_single rfl (by norm_num))
  exact ⟨h.1, h.2.1, h.2.2.1⟩

/-- C6: capacity-64 scenario.  `alloc(8)` computes 2 data words and leaves
an allocated block of size 3 at offset 0 with a free remainder of size 61
at offset 3; the following `alloc(16)` computes 4 data words and leaves an
allocated block of size 5 at offset 3 with a free remainder of size 56 at
offset 8 (both calls returning the data pointer one word past the header). -/
theorem C6_capacity64_scenario :
    ((8 + 3) % W32) / 4 = 2
    ∧ (alloc 64 8 zeroMem).2 = some 1
    ∧ mem64A 0 = ⟨3, true⟩
    ∧ mem64A 3 = ⟨61, false⟩
    ∧ ((16 + 3) % W32) / 4 = 4
    ∧ (alloc 64 16 mem64A).2 = some 4
    ∧ mem64B 3 = ⟨5, true⟩
    ∧ mem64B 8 = ⟨56, false⟩
    ∧ mem64B 0 = ⟨3, true⟩ := by decide

/-- C1 (failing input): at capacity 64, `alloc(244)` splits the fresh arena
into an allocated block of size 62 and a terminal free block of size 2 at
offset 62.  A following `alloc(4)` requests `W = 1` data word, so
`W + 1 = 2` exactly equals the remaining capacity of that terminal free
block and `62 + 1 + 1 ≤ 64`; the claim therefore requires the allocation to
succeed, but `findBlock_`'s guard `n >= Maxwords - 2` aborts the scan at
offset 62 and `alloc` fails with `ErrNoMem`, leaving the free block in
place. -/
theorem C1_locator_guard_rejects_exact_fit :
    (alloc 64 244 zeroMem).2 = some 1
    ∧ (alloc 64 244 zeroMem).1 0 = ⟨62, true⟩
    ∧ (alloc 64 244 zeroMem).1 62 = ⟨2, false⟩
    ∧ ((4 + 3) % W32) / 4 = 1
    ∧ 62 + 1 + 1 ≤ 64
    ∧ (alloc 64 4 (alloc 64 244 zeroMem).1).2 = none
    ∧ (alloc 64 4 (alloc 64 244 zeroMem).1).1 62 = ⟨2, false⟩ := by decide

/-- C8 (failing input): for `bytes = 4294967293 = 2^32 - 3` the 32-bit
computation `(bytes + 3) / 4` wraps to 0 data words; on a fresh capacity-64
arena `alloc` then succeeds and returns a pointer to a header-only block of
size 1, instead of failing: no `InvalidSize` error exists in the code. -/
theorem C8_overflow_returns_pointer :
    ((4294967293 + 3) % W32) / 4 = 0
    ∧ (alloc 64 4294967293 zeroMem).2 = some 1
    ∧ (alloc 64 4294967293 zeroMem).1 0 = ⟨1, true⟩
    ∧ (alloc 64 4294967293 zeroMem).1 1 = ⟨63, false⟩ := by decide

/-- C2 (counterexample): in the capacity-64 scenario (allocated blocks of
sizes 3 at offset 0 and 5 at offset 3, free tail of size 56), releasing the
FIRST pointer and then the SECOND — both releases succeeding — does not
yield a single free block of size 64 at offset 0: coalescing is
forward-only, so the arena ends as two free blocks, of size 3 at offset 0
and of size 61 at offset 3. -/
theorem C2_counterexample_release_order_matters :
    (freealloc 64 (some 1) mem64B).2 = FreeRes.ok
    ∧ (freealloc 64 (some 4) (freealloc 64 (some 1) mem64B).1).2 = FreeRes.ok
    ∧ (freealloc 64 (some 4) (freealloc 64 (some 1) mem64B).1).1 0 = ⟨3, false⟩
    ∧ ¬((freealloc 64 (some 4) (freealloc 64 (some 1) mem64B).1).1 0
        = ⟨64, false⟩)
    ∧ (freealloc 64 (some 4) (freealloc 64 (some 1) mem64B).1).1 3
        = ⟨61, false⟩ := by decide

/-- C2 (amended): for adjacent allocated blocks A (size `a` at offset `oA`)
and B (size `b` at `oA + a`), releasing B FIRST and then A yields one free
header at A's former offset: of size `a + b` when B's successor is the
arena end or an allocated block, and of size `a + b + s` when B is followed
by a free block of size `s` (which B absorbs first).  Releasing A before B
instead leaves A as a separate free block of size `a` (see the
counterexample): forward-only coalescing never merges into a predecessor. -/
theorem C2_release_second_then_first_coalesces
    (C oA a b : Nat) (m : Mem) (hC : C < W30)
    (hA : m oA = ⟨a, true⟩) (ha : 1 ≤ a)
    (hB : m (oA + a) = ⟨b, true⟩) (hb : 1 ≤ b)
    (hin : oA + a + b ≤ C) :
    ((oA + a + b = C ∨ (m (oA + a + b)).alloced = true) →
      ((freealloc C (some (oA + 1)) (freealloc C (some (oA + a + 1)) m).1).1 oA
          = ⟨a + b, false⟩
        ∧ (freealloc C (some (oA + a + 1)) m).2 = FreeRes.ok
        ∧ (freealloc C (some (oA + 1))
            (freealloc C (some (oA + a + 1)) m).1).2 = FreeRes.ok))
    ∧ (∀ s, oA + a + b < C → m (oA + a + b) = ⟨s, false⟩ → 1 ≤ s →
        oA + a + b + s ≤ C →
      ((freealloc C (some (oA + 1)) (freealloc C (some (oA + a + 1)) m).1).1 oA
          = ⟨a + b + s, false⟩
        ∧ (freealloc C (some (oA + a + 1)) m).2 = FreeRes.ok
        ∧ (freealloc C (some (oA + 1))
            (freealloc C (some (oA + a + 1)) m).1).2 = FreeRes.ok)) := by
  have hC' : C < 1073741824 := hC
  have h3032 := W30_lt_W32
  have hBw : (m (oA + a)).w = b := by rw [hB]
  have hBa : (m (oA + a)).alloced = true := by rw [hB]
  have hAw : (m oA).w = a := by rw [hA]
  have hAa : (m oA).alloced = true := by rw [hA]
  have hne : oA ≠ oA + a := by omega
  constructor
  · intro hsucc
    -- release B: no merge (successor is the arena end or allocated)
    have e1 : freealloc C (some (oA + a + 1)) m
        = (upd m (oA + a) ⟨(m (oA + a)).w, false⟩, FreeRes.ok) := by
      refine freealloc_eq_nomerge (by omega) hBa (by omega) (by rw [hBw]; omega) ?_
      rw [hBw]
      rcases hsucc with hsucc | hsucc
      · exact Or.inl (by omega)
      · exact Or.inr (Or.inl hsucc)
    rw [hBw] at e1
    rw [e1]
    -- release A: merges with the now-free B
    have hm1A : (upd m (oA + a) ⟨b, false⟩) oA = ⟨a, true⟩ := by
      rw [upd_ne _ _ _ hne, hA]
    have hm1Aw : ((upd m (oA + a) ⟨b, false⟩) oA).w = a := by rw [hm1A]
    have hm1Aa : ((upd m (oA + a) ⟨b, false⟩) oA).alloced = true := by rw [hm1A]
    have hm1Bw : ((upd m (oA + a) ⟨b, false⟩) (oA + a)).w = b := by
      rw [upd_same]
    have hm1Ba : ((upd m (oA + a) ⟨b, false⟩) (oA + a)).alloced = false := by
      rw [upd_same]
    have e2 := freealloc_eq_merge (show oA < C by omega) hm1Aa
      (by rw [hm1Aw]; omega) (by rw [hm1Aw]; omega) (by rw [hm1Aw]; omega)
      (by rw [hm1Aw]; exact hm1Ba) (by rw [hm1Aw, hm1Bw]; omega)
    rw [e2]
    have hmask : (a + b) % W30 = a + b := Nat.mod_eq_of_lt (by omega)
    refine ⟨?_, rfl, rfl⟩
    show upd (upd m (oA + a) ⟨b, false⟩) oA _ oA = _
    rw [upd_same, hm1Aw, hm1Bw, hmask]
  · intro s hslt hs hs1 hsin
    have hsw : (m (oA + a + b)).w = s := by rw [hs]
    have hsa : (m (oA + a + b)).alloced = false := by rw [hs]
    -- release B: merges with the free successor of size s
    have e1 : freealloc C (some (oA + a + 1)) m
        = (upd m (oA + a)
            ⟨((m (oA + a)).w + (m (oA + a + (m (oA + a)).w)).w) % W30, false⟩,
          FreeRes.ok) := by
      refine freealloc_eq_merge (by omega) hBa (by omega) ?_ ?_ ?_ ?_
      · rw [hBw]; omega
      · rw [hBw]; omega
      · rw [hBw]; exact hsa
      · rw [hBw, hsw]; omega
    have hval : ((m (oA + a)).w + (m (oA + a + (m (oA + a)).w)).w) % W30
        = b + s := by
      rw [hBw, hsw]
      exact Nat.mod_eq_of_lt (by omega)
    rw [hval] at e1
    rw [e1]
    -- release A: merges with the enlarged free B
    have hm1A : (upd m (oA + a) ⟨b + s, false⟩) oA = ⟨a, true⟩ := by
      rw [upd_ne _ _ _ hne, hA]
    have hm1Aw : ((upd m (oA + a) ⟨b + s, false⟩) oA).w = a := by rw [hm1A]
    have hm1Aa : ((upd m (oA + a) ⟨b + s, false⟩) oA).alloced = true := by
      rw [hm1A]
    have hm1Bw : ((upd m (oA + a) ⟨b + s, false⟩) (oA + a)).w = b + s := by
      rw [upd_same]
    have hm1Ba : ((upd m (oA + a) ⟨b + s, false⟩) (oA + a)).alloced = false := by
      rw [upd_same]
    have e2 := freealloc_eq_merge (show oA < C by omega) hm1Aa
      (by rw [hm1Aw]; omega) (by rw [hm1Aw]; omega) (by rw [hm1Aw]; omega)
      (by rw [hm1Aw]; exact hm1Ba) (by rw [hm1Aw, hm1Bw]; omega)
    rw [e2]
    have hmask : (a + (b + s)) % W30 = a + b + s := by
      rw [Nat.mod_eq_of_lt (by omega)]
      omega
    refine ⟨?_, rfl, rfl⟩
    show upd (upd m (oA + a) ⟨b + s, false⟩) oA _ oA = _
    rw [upd_same, hm1Aw, hm1Bw, hmask]

/-- Witness for the amended C2 at the capacity-64 scenario: releasing the
second pointer (word offset 4) and then the first (word offset 1) yields a
single free header of size 64 at offset 0. -/
theorem C2_witness :
    (freealloc 64 (some (0 + 1)) (freealloc 64 (some (0 + 3 + 1)) mem64B).1).1 0
      = ⟨64, false⟩
    ∧ (freealloc 64 (some (0 + 3 + 1)) mem64B).2 = FreeRes.ok
    ∧ (freealloc 64 (some (0 + 1))
        (freealloc 64 (some (0 + 3 + 1)) mem64B).1).2 = FreeRes.ok := by
  have h := (C2_release_second_then_first_coalesces 64 0 3 5 mem64B
    (by norm_num [W30]) (by decide) (by decide) (by decide) (by decide)
    (by decide)).2 56 (by decide) (by decide) (by decide) (by decide)
  exact ⟨by rw [h.1], h.2.1, h.2.2⟩

/-- C3 (counterexample): `freealloc` does not detect misalignment.  The
pointer at byte offset 6 from `memspace` is misaligned (`6 % 4 ≠ 0`); its
header byte offset `6 - 4 = 2` is in bounds and its truncated word offset
`2 / 4 = 0` is below the capacity, so the validation of `freealloc` accepts
it instead of rejecting it with `InvalidPointer`. -/
theorem C3_counterexample_misaligned_not_rejected :
    invalidPtrCheck 64 6 = false
    ∧ (6 : Int) % 4 ≠ 0
    ∧ (0 : Int) ≤ 6 - 4
    ∧ ((6 : Int) - 4).toNat / 4 < 64 := by decide

/-- C3 (amended): `release(NULL)` is a no-op; a pointer whose resolved
header lies outside `[memspace, memspace + C)` is rejected with
`InvalidPointer` (but misalignment is NOT checked: an in-bounds misaligned
pointer passes this validation, see the counterexample); releasing a block
that is not currently allocated is rejected with `DoubleFree`, so releasing
the same pointer twice gives success then `DoubleFree`; an allocated header
of size 0 is rejected with `CorruptionDetected`; every rejected release
returns without mutating the arena, and every call returns a result (the
core never aborts). -/
theorem C3_release_validation (C : Nat) (m : Mem) (po : Nat) :
    freealloc C none m = (m, FreeRes.nullPtr)
    ∧ (po = 0 ∨ C ≤ po - 1 → freealloc C (some po) m = (m, FreeRes.invalidPtr))
    ∧ (1 ≤ po → po - 1 < C → (m (po - 1)).alloced = false →
        freealloc C (some po) m = (m, FreeRes.doubleFree))
    ∧ (1 ≤ po → po - 1 < C → (m (po - 1)).alloced = true → (m (po - 1)).w = 0 →
        freealloc C (some po) m = (m, FreeRes.corrupt))
    ∧ ((freealloc C (some po) m).2 ≠ FreeRes.ok →
        (freealloc C (some po) m).1 = m)
    ∧ ((freealloc C (some po) m).2 = FreeRes.ok →
        (freealloc C (some po) ((freealloc C (some po) m).1)).2
          = FreeRes.doubleFree) := by
  refine ⟨rfl, ?_, ?_, ?_, ?_, ?_⟩
  · intro h
    by_cases h0 : po = 0
    · simp [freealloc, h0]
    · rcases h with h | h
      · exact absurd h h0
      · simp only [freealloc]
        rw [if_neg h0, if_pos h]
  · intro h1 h2 h3
    simp only [freealloc]
    rw [if_neg (by omega), if_neg (by omega), if_pos h3]
  · intro h1 h2 h3 h4
    simp only [freealloc]
    rw [if_neg (by omega), if_neg (by omega), if_neg (by simp [h3]), if_pos h4]
  · intro h
    simp only [freealloc, upd_same] at h ⊢
    split_ifs at h ⊢ <;> first | rfl | exact absurd rfl h
  · intro h
    by_cases h1 : po = 0
    · simp [freealloc, h1] at h
    · by_cases h2 : C ≤ po - 1
      · simp [freealloc, h1, h2] at h
      · by_cases h3 : (m (po - 1)).alloced = false
        · simp [freealloc, h1, h2, h3] at h
        · by_cases h4 : (m (po - 1)).w = 0
          · simp [freealloc, h1, h2, h3, h4] at h
          · have hM : ((freealloc C (some po) m).1 (po - 1)).alloced = false := by
              simp only [freealloc, upd_same]
              rw [if_neg h1, if_neg h2, if_neg h3, if_neg h4]
              split_ifs <;> simp [upd]
            generalize hMg : (freealloc C (some po) m).1 = M at hM
            simp only [freealloc]
            rw [if_neg h1, if_neg h2, if_pos hM]

/-- Witness for the amended C3 in the capacity-64 scenario state: a NULL
release is a no-op, releasing the free block at offset 8 (pointer word
offset 9) reports `DoubleFree` without mutation, and the out-of-bounds
pointer word offset 100 reports `InvalidPointer` without mutation. -/
theorem C3_witness :
    freealloc 64 none mem64B = (mem64B, FreeRes.nullPtr)
    ∧ freealloc 64 (some 9) mem64B = (mem64B, FreeRes.doubleFree)
    ∧ freealloc 64 (some 100) mem64B = (mem64B, FreeRes.invalidPtr) := by
  have h9 := C3_release_validation 64 mem64B 9
  have h100 := C3_release_validation 64 mem64B 100
  exact ⟨h9.1, h9.2.2.1 (by decide) (by decide) (by decide),
    h100.2.1 (Or.inr (by decide))⟩

/-- C5: split threshold of `mkalloc`.  For a found free block of size `S`
and a request of `W` data words (`required = W + 1 ≤ S`): when
`S - required ≥ 2` the block is split — the allocated header gets size
exactly `W + 1` and a new free header of size exactly `S - (W + 1)` appears
at offset `ho + (W + 1)`; otherwise the whole block is consumed and its
size stays `S`.  In particular `S = W + 1` yields no split and `S ≥ W + 3`
yields a split with an exact remainder.  The returned pointer is always one
word past the header. -/
theorem C5_split_threshold (m : Mem) (ho W S : Nat)
    (hfree : (m ho).alloced = false) (hS : (m ho).w = S)
    (hS30 : S < W30) (hfit : W + 1 ≤ S) :
    (2 ≤ S - (W + 1) →
      (mkalloc W ho m).1 ho = ⟨W + 1, true⟩
      ∧ (mkalloc W ho m).1 (ho + (W + 1)) = ⟨S - (W + 1), false⟩
      ∧ ∀ k, k ≠ ho → k ≠ ho + (W + 1) → (mkalloc W ho m).1 k = m k)
    ∧ (S - (W + 1) < 2 →
      (mkalloc W ho m).1 ho = ⟨S, true⟩
      ∧ ∀ k, k ≠ ho → (mkalloc W ho m).1 k = m k)
    ∧ (mkalloc W ho m).2 = ho + 1 := by
  have hw32 : W + 1 < W32 := by
    have := W30_lt_W32
    omega
  refine ⟨fun h => ?_, fun h => ?_, ?_⟩
  · obtain ⟨e1, e2, e3, -⟩ := mkalloc_eq_split hS hw32 hS30 hfit h
    exact ⟨e1, e2, e3⟩
  · obtain ⟨e1, e2, -⟩ := mkalloc_eq_consume hS hw32 hS30 hfit h
    exact ⟨e1, e2⟩
  · by_cases h : 2 ≤ S - (W + 1)
    · exact (mkalloc_eq_split hS hw32 hS30 hfit h).2.2.2
    · exact (mkalloc_eq_consume hS hw32 hS30 hfit (by omega)).2.2

/-- Witness for C5: on the one-block capacity-64 arena a request of 2 data
words splits into an allocated block of size 3 and a free block of size 61. -/
theorem C5_witness :
    (mkalloc 2 0 (upd zeroMem 0 ⟨64, false⟩)).1 0 = ⟨3, true⟩
    ∧ (mkalloc 2 0 (upd zeroMem 0 ⟨64, false⟩)).1 3 = ⟨61, false⟩
    ∧ (mkalloc 2 0 (upd zeroMem 0 ⟨64, false⟩)).2 = 1 := by
  have h := C5_split_threshold (upd zeroMem 0 ⟨64, false⟩) 0 2 64
    (by rfl) (by rfl) (by norm_num [W30]) (by norm_num)
  obtain ⟨e1, e2, -⟩ := h.1 (by norm_num)
  exact ⟨e1, e2, h.2.2⟩

/-- C7: on the first-ever call (the header at offset 0 reads size 0), if
`W + 1 > C` then `alloc` fails without mutating the arena at all; otherwise
it first initializes the arena as one free block of size `C` at offset 0
(a valid one-entry chain) and from then on behaves exactly like `alloc` on
that initialized arena (search, then allocation). -/
theorem C7_first_call_initializes (C : Nat) (m : Mem) (bytes : Nat)
    (h0 : (m 0).w = 0) (hC : C < W30) :
    (C < ((bytes + 3) % W32) / 4 + 1 → alloc C bytes m = (m, none))
    ∧ (((bytes + 3) % W32) / 4 + 1 ≤ C →
        alloc C bytes m = alloc C bytes (upd m 0 ⟨C, false⟩)
        ∧ (upd m 0 ⟨C, false⟩) 0 = ⟨C, false⟩
        ∧ ChainFromL C (upd m 0 ⟨C, false⟩) 0 [0]) := by
  have hCm : C % W30 = C := Nat.mod_eq_of_lt hC
  constructor
  · intro h
    simp only [alloc]
    rw [if_pos h0, if_pos h]
  · intro h
    have hCne : ¬(((upd m 0 ⟨C, false⟩) 0).w = 0) := by
      rw [upd_same]
      show ¬(C = 0)
      omega
    refine ⟨?_, upd_same _ _ _, chain_single (by rw [upd_same]) (by omega)⟩
    have hL : alloc C bytes m
        = (match findBlock_ C (upd m 0 ⟨C, false⟩) (((bytes + 3) % W32) / 4)
              (C + 1) 0 with
           | none => (upd m 0 ⟨C, false⟩, none)
           | some ho =>
              ((mkalloc (((bytes + 3) % W32) / 4) ho (upd m 0 ⟨C, false⟩)).1,
                some (mkalloc (((bytes + 3) % W32) / 4) ho
                  (upd m 0 ⟨C, false⟩)).2)) := by
      simp only [alloc]
      rw [if_pos h0, if_neg (by omega), hCm]
    have hR : alloc C bytes (upd m 0 ⟨C, false⟩)
        = (match findBlock_ C (upd m 0 ⟨C, false⟩) (((bytes + 3) % W32) / 4)
              (C + 1) 0 with
           | none => (upd m 0 ⟨C, false⟩, none)
           | some ho =>
              ((mkalloc (((bytes + 3) % W32) / 4) ho (upd m 0 ⟨C, false⟩)).1,
                some (mkalloc (((bytes + 3) % W32) / 4) ho
                  (upd m 0 ⟨C, false⟩)).2)) := by
      simp only [alloc]
      rw [if_neg hCne]
    rw [hL, hR]

/-- Witness for C7 at capacity 64: `alloc(260)` needs 66 > 64 words and
fails without mutation; `alloc(8)` behaves like the search on the
initialized arena. -/
theorem C7_witness :
    alloc 64 260 zeroMem = (zeroMem, none)
    ∧ alloc 64 8 zeroMem = alloc 64 8 (upd zeroMem 0 ⟨64, false⟩) := by
  have h1 := C7_first_call_initializes 64 zeroMem 260 rfl (by norm_num [W30])
  have h2 := C7_first_call_initializes 64 zeroMem 8 rfl (by norm_num [W30])
  exact ⟨h1.1 (by norm_num [W32]), (h2.2 (by norm_num [W32])).1⟩

/-- C9 (implicit): on a fresh zero-initialized arena of capacity `C ≥ 3`,
`alloc(0)` is not rejected: it computes `W = 0`, succeeds, returns the
pointer one word past offset 0, and leaves an allocated header-only block
of size 1 at offset 0 with a free remainder of size `C - 1` at offset 1
(every other word still zero). -/
theorem C9_alloc_zero_bytes (C : Nat) (h3 : 3 ≤ C) (hC : C < W30) :
    (alloc C 0 zeroMem).2 = some 1
    ∧ (alloc C 0 zeroMem).1 0 = ⟨1, true⟩
    ∧ (alloc C 0 zeroMem).1 1 = ⟨C - 1, false⟩
    ∧ ∀ k, k ≠ 0 → k ≠ 1 → (alloc C 0 zeroMem).1 k = ⟨0, false⟩ := by
  have hCm : C % W30 = C := Nat.mod_eq_of_lt hC
  have hw : ((0 + 3) % W32) / 4 = 0 := by norm_num [W32]
  have hcond : ((upd zeroMem 0 ⟨C, false⟩) 0).alloced = false
      ∧ (0 + 1) % W32 ≤ ((upd zeroMem 0 ⟨C, false⟩) 0).w := by
    constructor
    · rw [upd_same]
    · rw [upd_same]
      show (0 + 1) % W32 ≤ C
      have h1 : (0 + 1) % W32 = 1 := by norm_num [W32]
      omega
  have hfind : findBlock_ C (upd zeroMem 0 ⟨C, false⟩) 0 (C + 1) 0 = some 0 := by
    simp only [findBlock_]
    rw [if_neg (by omega), if_pos hcond]
  have hL : alloc C 0 zeroMem
      = ((mkalloc 0 0 (upd zeroMem 0 ⟨C, false⟩)).1,
          some (mkalloc 0 0 (upd zeroMem 0 ⟨C, false⟩)).2) := by
    simp only [alloc]
    rw [if_pos (show (zeroMem 0).w = 0 from rfl), hw, if_neg (by omega),
      hCm, hfind]
  have hSm1 : ((upd zeroMem 0 ⟨C, false⟩) 0).w = C := by rw [upd_same]
  obtain ⟨e1, e2, e3, e4⟩ := @mkalloc_eq_split (upd zeroMem 0 ⟨C, false⟩) 0 0 C
    hSm1 (by norm_num [W32]) hC (by omega) (by omega)
  rw [hL]
  refine ⟨?_, ?_, ?_, ?_⟩
  · rw [e4]
  · simpa using e1
  · simpa using e2
  · intro k hk0 hk1
    have hk := e3 k hk0 (by omega)
    rw [hk, upd_ne _ _ _ hk0]
    rfl

/-- Witness for C9 at capacity 64: `alloc(0)` on the fresh arena returns
pointer word offset 1, a size-1 allocated block at 0 and a free block of
size 63 at offset 1. -/
theorem C9_witness :
    (alloc 64 0 zeroMem).2 = some 1
    ∧ (alloc 64 0 zeroMem).1 0 = ⟨1, true⟩
    ∧ (alloc 64 0 zeroMem).1 1 = ⟨63, false⟩ := by
  have h := C9_alloc_zero_bytes 64 (by norm_num) (by norm_num [W30])
  exact ⟨h.1, h.2.1, by simpa using h.2.2.1⟩

/-- C10 (implicit): on a chain whose reachable headers all have size ≥ 1
(`ChainFromL`), the recursion of `findBlock_` terminates: each step
strictly increases the scan offset by the current block's size, so the
recursion depth is bounded by the number of blocks, and any fuel larger
than that number yields the same result — the unbounded C recursion is
well-defined there. -/
theorem C10_findBlock_terminates (C : Nat) (m : Mem) (wta n : Nat)
    (l : List Nat) (h : ChainFromL C m n l) (hC : C < W30) :
    ∀ fuel₁ fuel₂ : Nat, l.length < fuel₁ → l.length < fuel₂ →
      findBlock_ C m wta fuel₁ n = findBlock_ C m wta fuel₂ n := by
  induction h with
  | nil =>
    intro f1 f2 h1 h2
    match f1, f2 with
    | g1 + 1, g2 + 1 =>
      simp only [findBlock_]
      rw [if_pos (by omega), if_pos (by omega)]
  | @cons n l₁ hn hw tl ih =>
    intro f1 f2 h1 h2
    match f1, f2 with
    | g1 + 1, g2 + 1 =>
      simp only [findBlock_]
      by_cases hg : C - 2 ≤ n
      · rw [if_pos hg, if_pos hg]
      · rw [if_neg hg, if_neg hg]
        by_cases hcond : (m n).alloced = false ∧ (wta + 1) % W32 ≤ (m n).w
        · rw [if_pos hcond, if_pos hcond]
        · rw [if_neg hcond, if_neg hcond]
          have hle : n + (m n).w ≤ C := tl.le_C
          have hmask : (n + (m n).w) % W32 = n + (m n).w := by
            refine Nat.mod_eq_of_lt ?_
            have := W30_lt_W32
            omega
          rw [hmask]
          exact ih g1 g2 (by simp at h1; omega) (by simp at h2; omega)

/-- Witness for C10: on the one-block capacity-64 arena (one block, so any
fuel above 1 suffices), fuel 2 and fuel 65 agree. -/
theorem C10_witness :
    findBlock_ 64 (upd zeroMem 0 ⟨64, false⟩) 2 2 0
      = findBlock_ 64 (upd zeroMem 0 ⟨64, false⟩) 2 65 0 := by
  exact C10_findBlock_terminates 64 (upd zeroMem 0 ⟨64, false⟩) 2 0 [0]
    (chain_single rfl (by norm_num)) (by norm_num [W30]) 2 65
    (by norm_num) (by norm_num)

end MemAlloc
